import Mathlib

/-!
# A shallow embedding of the gpp preprocessor

This file embeds the processing engine of `src/lib.rs` (the gpp crate):
the per-line classifier, the command dispatch table, the conditional
stack machine, the macro substitution loop, the `#in`/`#endin` pipe
stack and the line-buffered driver, and proves properties about them.

Modelling conventions:
* Rust `String`/`&str` values are Lean `String`s; character-level work
  is done on `String.data` (`List Char`).  Rust's Unicode character
  classes (`char::is_alphanumeric`, `char::is_whitespace`) are modelled
  by Lean's ASCII `Char.isAlphanum`/`Char.isWhitespace`; they agree on
  the ASCII inputs considered here.
* `HashMap<String, String>` is modelled as an association list
  `List (String × String)`; the source iterates the map in an
  unspecified order, the list fixes one such order.
* External effects (spawning shells, reading files) are abstracted into
  an `Env` record of oracles; an `#exec` result, an `#endin` captured
  output, and the line list of an opened file are looked up there.
* The two unbounded loops of the source (the macro substitution `while`
  loop and the `#include` recursion) are indexed by fuel; `none` is the
  out-of-fuel (divergence) outcome, `some` the source's actual result.
* `Vec<Child>` used as a stack (push/pop/last at the end) is modelled as
  a list with its top at the head.
-/

/-- Source `is_word_char`: alphanumeric or underscore. -/
def is_word_char (c : Char) : Bool :=
  c.isAlphanum || c == '_'

/-- Model of Rust `str::splitn(2, needle)` restricted to the interesting
case: returns the text before and after the first occurrence of
`needle`, or `none` when `needle` does not occur. -/
def splitFirst (needle : List Char) : List Char → Option (List Char × List Char)
  | [] => if needle.isEmpty then some ([], []) else none
  | c :: rest =>
    if needle.isPrefixOf (c :: rest) then some ([], (c :: rest).drop needle.length)
    else (splitFirst needle rest).map (fun p => (c :: p.1, p.2))

/-- Source `before.chars().next_back().map_or(false, is_word_char)`. -/
def endsWordChar (l : List Char) : Bool :=
  match l.getLast? with
  | some c => is_word_char c
  | none => false

/-- Source `after.chars().next().map_or(false, is_word_char)`. -/
def startsWordChar (l : List Char) : Bool :=
  match l.head? with
  | some c => is_word_char c
  | none => false

/-- The closure inside `replace_next_macro`: split the line at the first
occurrence of `name`, fail when that occurrence touches a word
character, otherwise build `before ++ value ++ after`. -/
def macroStep (line : List Char) (name value : String) : Option (List Char) :=
  match splitFirst name.data line with
  | none => none
  | some (before, after) =>
    if endsWordChar before || startsWordChar after then none
    else some (before ++ value.data ++ after)

/-- Source `replace_next_macro`: first macro (in table order) whose
first occurrence in the line is a whole word wins. -/
def replace_next_macro (line : List Char) (macros : List (String × String)) :
    Option (List Char) :=
  macros.findSome? (fun nv => macroStep line nv.1 nv.2)

/-- The `while let Some(s) = replace_next_macro(..)` loop of
`process_line`, with fuel; `none` models divergence. -/
def substituteMacros : Nat → List Char → List (String × String) → Option (List Char)
  | 0, _, _ => none
  | fuel + 1, line, macros =>
    match replace_next_macro line macros with
    | some l => substituteMacros fuel l macros
    | none => some line

/-- Source `Error` enum.  `IoError`/`FromUtf8Error` payloads are
dropped; `ChildFailed`'s `ExitStatus` is modelled as a `Nat`. -/
inductive Error where
  | InvalidCommand (command_name : String)
  | TooManyParameters (command : String)
  | UnexpectedCommand (command : String)
  | ChildFailed (status : Nat)
  | PipeFailed
  | IoError
  | FromUtf8Error
  | FileError (filename : String) (line : Nat) (error : Error)
deriving DecidableEq, Repr

/-- An open `#in` child process: the command it was spawned with and
the data written to its standard input so far. -/
structure Child where
  cmd : String
  stdinData : String
deriving DecidableEq, Repr

/-- Source `Context`. -/
structure Context where
  macros : List (String × String)
  inactive_stack : Nat
  used_if : Bool
  allow_exec : Bool
  in_stack : List Child
deriving DecidableEq, Repr

/-- Source `HashMap::contains_key`. -/
def containsKey (macros : List (String × String)) (k : String) : Bool :=
  macros.any (fun nv => nv.1 == k)

/-- Source `HashMap::insert` (replaces the value of an existing key). -/
def macroInsert (macros : List (String × String)) (name value : String) :
    List (String × String) :=
  if macros.any (fun nv => nv.1 == name) then
    macros.map (fun nv => if nv.1 == name then (name, value) else nv)
  else macros ++ [(name, value)]

/-- Source `HashMap::remove`. -/
def macroRemove (macros : List (String × String)) (name : String) :
    List (String × String) :=
  macros.filter (fun nv => !(nv.1 == name))

/-- Oracles for the external world: `exec_out cmd` is the captured
stdout of `sh -c cmd` (source `process_exec`), `pipe_out cmd input` the
captured stdout of the `#in` child `cmd` after `input` was written to
its stdin and it was waited for (source `process_endin`), and
`files path` the line list of an opened file (source `process_file`).
Failures (I/O, nonzero exit, invalid UTF-8) are the `Except.error`s. -/
structure Env where
  exec_out : String → Except Error String
  pipe_out : String → String → Except Error String
  files : String → Except Error (List String)

/-- Source `process_exec` (shelling out replaced by the oracle). -/
def process_exec (line : List Char) (ctx : Context) (env : Env) :
    Except Error (String × Context) :=
  (env.exec_out ⟨line⟩).map (fun s => (s, ctx))

/-- Source `process_in`: push a fresh child on the pipe stack. -/
def process_in (line : List Char) (ctx : Context) :
    Except Error (String × Context) :=
  .ok ("", { ctx with in_stack := ⟨⟨line⟩, ""⟩ :: ctx.in_stack })

/-- Source `process_endin`: pop the innermost child and use its captured
stdout as this line's output. -/
def process_endin (line : List Char) (ctx : Context) (env : Env) :
    Except Error (String × Context) :=
  if !line.isEmpty then .error (.TooManyParameters "endin")
  else
    match ctx.in_stack with
    | [] => .error (.UnexpectedCommand "endin")
    | child :: rest =>
      (env.pipe_out child.cmd child.stdinData).map
        (fun s => (s, { ctx with in_stack := rest }))

/-- Source `process_define`: split the argument on the first space, the
value defaults to the empty string. -/
def process_define (line : List Char) (ctx : Context) :
    Except Error (String × Context) :=
  let p : String × String :=
    match splitFirst [' '] line with
    | some (b, a) => (⟨b⟩, ⟨a⟩)
    | none => (⟨line⟩, "")
  .ok ("", { ctx with macros := macroInsert ctx.macros p.1 p.2 })

/-- Source `process_undef`. -/
def process_undef (line : List Char) (ctx : Context) :
    Except Error (String × Context) :=
  .ok ("", { ctx with macros := macroRemove ctx.macros ⟨line⟩ })

/-- Source `process_ifdef` (also `#ifndef` via `inverted`). -/
def process_ifdef (line : List Char) (ctx : Context) (inverted : Bool) :
    Except Error (String × Context) :=
  .ok ("",
    if ctx.inactive_stack > 0 then
      { ctx with inactive_stack := ctx.inactive_stack + 1 }
    else if containsKey ctx.macros ⟨line⟩ == inverted then
      { ctx with inactive_stack := 1, used_if := false }
    else
      { ctx with used_if := true })

/-- The state transition of `process_elifdef`, with the membership test
already evaluated to `test`. -/
def elifdefTransition (test : Bool) (ctx : Context) : Context :=
  if ctx.inactive_stack == 0 then { ctx with inactive_stack := 1 }
  else if ctx.inactive_stack == 1 && !ctx.used_if && test then
    { ctx with inactive_stack := 0 }
  else ctx

/-- Source `process_elifdef` (also `#elifndef` via `inverted`). -/
def process_elifdef (line : List Char) (ctx : Context) (inverted : Bool) :
    Except Error (String × Context) :=
  .ok ("", elifdefTransition (containsKey ctx.macros ⟨line⟩ != inverted) ctx)

/-- The state transition of `process_else` on an empty argument. -/
def elseTransition (ctx : Context) : Context :=
  { ctx with inactive_stack :=
      match ctx.inactive_stack with
      | 0 => 1
      | 1 => if !ctx.used_if then 0 else 1
      | v => v }

/-- Source `process_else`. -/
def process_else (line : List Char) (ctx : Context) :
    Except Error (String × Context) :=
  if !line.isEmpty then .error (.TooManyParameters "else")
  else .ok ("", elseTransition ctx)

/-- Source `process_endif`. -/
def process_endif (line : List Char) (ctx : Context) :
    Except Error (String × Context) :=
  if !line.isEmpty then .error (.TooManyParameters "endif")
  else .ok ("",
    if ctx.inactive_stack ≠ 0 then
      { ctx with inactive_stack := ctx.inactive_stack - 1 }
    else ctx)

/-- Tags naming the handler a `Command` dispatches to (the source
stores a function pointer; the dispatch itself is in `runCommand`). -/
inductive CmdId where
  | cExec | cIn | cEndin | cInclude | cDefine | cUndef
  | cIfdef | cIfndef | cElifdef | cElifndef | cElse | cEndif
deriving DecidableEq, Repr

/-- Source `Command` struct. -/
structure Command where
  name : String
  requires_exec : Bool
  ignored_by_if : Bool
  execute : CmdId
deriving DecidableEq, Repr

/-- Source `COMMANDS` table, in source order. -/
def COMMANDS : List Command :=
  [ ⟨"exec", true, false, .cExec⟩,
    ⟨"in", true, false, .cIn⟩,
    ⟨"endin", true, false, .cEndin⟩,
    ⟨"include", false, false, .cInclude⟩,
    ⟨"define", false, false, .cDefine⟩,
    ⟨"undef", false, false, .cUndef⟩,
    ⟨"ifdef", false, true, .cIfdef⟩,
    ⟨"ifndef", false, true, .cIfndef⟩,
    ⟨"elifdef", false, true, .cElifdef⟩,
    ⟨"elifndef", false, true, .cElifndef⟩,
    ⟨"else", false, true, .cElse⟩,
    ⟨"endif", false, true, .cEndif⟩ ]

/-- The classified form of a line (the local `enum Line` of
`process_line`). -/
inductive Line where
  | Text (t : List Char)
  | Command (c : Command) (content : List Char)
deriving DecidableEq, Repr

/-- Source `line.strip_suffix("\r\n").or_else(strip_suffix('\n'))`. -/
def stripLineEnd (line : List Char) : List Char :=
  if line.getLast? = some '\n' then
    let l := line.dropLast
    if l.getLast? = some '\r' then l.dropLast else l
  else line

/-- Rust `str::trim_start` on the char list. -/
def trimStart (l : List Char) : List Char :=
  l.dropWhile (fun c => c.isWhitespace)

/-- The filtered lookup in the `COMMANDS` table: exec-family commands
are visible only when `allow_exec` is set. -/
def findCommand (ctx : Context) (command_name : String) : Option Command :=
  (COMMANDS.filter (fun c => ctx.allow_exec || !c.requires_exec)).find?
    (fun c => c.name == command_name)

/-- The `splitn(2, ' ')` step of command parsing: the command name up
to the first space, and the rest with leading whitespace trimmed. -/
def splitFirstSpace (t : List Char) : List Char × List Char :=
  match splitFirst [' '] t with
  | some (cn, rest2) => (cn, trimStart rest2)
  | none => (t, [])

/-- The classification step of `process_line`: literal-hash escape,
command lookup (an unknown name is an `InvalidCommand` error), or plain
text.  The marker is only recognised as the line's first character. -/
def classify (line : List Char) (ctx : Context) : Except Error Line :=
  match line with
  | '#' :: '#' :: rest => .ok (.Text ('#' :: rest))
  | '#' :: rest =>
    match splitFirstSpace (trimStart rest) with
    | (cn, content) =>
      match findCommand ctx ⟨cn⟩ with
      | some c => .ok (.Command c content)
      | none => .error (.InvalidCommand ⟨cn⟩)
  | _ => .ok (.Text line)

/-- The guard of the suppression arm in `process_line`'s `match`: plain
text and commands with `ignored_by_if: false` are suppressed while the
conditional stack is inactive. -/
def suppressedWhenInactive : Line → Bool
  | .Text _ => true
  | .Command c _ => !c.ignored_by_if

/-- The final step of `process_line`: when the pipe stack is nonempty
the line's output is written to the innermost child's stdin and the
line contributes nothing. -/
def routeOutput (out : String) (ctx : Context) : String × Context :=
  match ctx.in_stack with
  | [] => (out, ctx)
  | child :: rest =>
    ("", { ctx with in_stack :=
            { child with stdinData := child.stdinData ++ out } :: rest })

/-- The loop body of `process_buf`: process each line in turn, wrap a
line's error with the source label and the 0-based line index, and
concatenate the outputs.  `pl` is the per-line processor. -/
def bufGo (pl : String → Context → Option (Except Error (String × Context))) :
    List String → Nat → String → Context → Option (Except Error (String × Context))
  | [], _, _, ctx => some (.ok ("", ctx))
  | l :: ls, idx, name, ctx =>
    match pl l ctx with
    | none => none
    | some (.error e) => some (.error (.FileError name idx e))
    | some (.ok (s, ctx2)) =>
      match bufGo pl ls (idx + 1) name ctx2 with
      | none => none
      | some (.error e) => some (.error e)
      | some (.ok (rest, ctx3)) => some (.ok (s ++ rest, ctx3))

/-- Dispatch on the handler tag (the source's `(command.execute)(..)`),
given the recursive per-line processor for `#include`. -/
def runCommand (recurse : String → Context → Option (Except Error (String × Context)))
    (id : CmdId) (content : List Char) (ctx : Context) (env : Env) :
    Option (Except Error (String × Context)) :=
  match id with
  | .cExec => some (process_exec content ctx env)
  | .cIn => some (process_in content ctx)
  | .cEndin => some (process_endin content ctx env)
  | .cInclude =>
    match env.files ⟨content⟩ with
    | .error e => some (.error e)
    | .ok ls => bufGo recurse ls 0 ⟨content⟩ ctx
  | .cDefine => some (process_define content ctx)
  | .cUndef => some (process_undef content ctx)
  | .cIfdef => some (process_ifdef content ctx false)
  | .cIfndef => some (process_ifdef content ctx true)
  | .cElifdef => some (process_elifdef content ctx false)
  | .cElifndef => some (process_elifdef content ctx true)
  | .cElse => some (process_else content ctx)
  | .cEndif => some (process_endif content ctx)

/-- The `match` over the classified line in `process_line`: suppress
while inactive, substitute macros into plain text (`sfuel` bounds the
substitution loop), or run the command. -/
def runLine (recurse : String → Context → Option (Except Error (String × Context)))
    (sfuel : Nat) (l : Line) (ctx : Context) (env : Env) :
    Option (Except Error (String × Context)) :=
  if ctx.inactive_stack > 0 ∧ suppressedWhenInactive l then some (.ok ("", ctx))
  else
    match l with
    | .Text t =>
      match substituteMacros sfuel (t ++ ['\n']) ctx.macros with
      | none => none
      | some r => some (.ok (⟨r⟩, ctx))
    | .Command c content => runCommand recurse c.execute content ctx env

/-- Source `process_line`: strip the trailing terminator, classify,
run the line, then route the output through the pipe stack. -/
def process_line : Nat → String → Context → Env → Option (Except Error (String × Context))
  | 0, _, _, _ => none
  | fuel + 1, rawLine, ctx, env =>
    match classify (stripLineEnd rawLine.data) ctx with
    | .error e => some (.error e)
    | .ok l =>
      match runLine (fun l2 c2 => process_line fuel l2 c2 env) (fuel + 1) l ctx env with
      | none => none
      | some (.error e) => some (.error e)
      | some (.ok (out, ctx2)) => some (.ok (routeOutput out ctx2))

/-- Source `process_file`, with the file system in the environment. -/
def process_file (fuel : Nat) (filename : String) (ctx : Context) (env : Env) :
    Option (Except Error (String × Context)) :=
  match env.files filename with
  | .error e => some (.error e)
  | .ok ls => bufGo (fun l c => process_line fuel l c env) ls 0 filename ctx

/-- Source `process_buf` on an already-split line list. -/
def process_buf (fuel : Nat) (lines : List String) (buf_name : String)
    (ctx : Context) (env : Env) : Option (Except Error (String × Context)) :=
  bufGo (fun l c => process_line fuel l c env) lines 0 buf_name ctx

/-- Model of `BufRead::lines` splitting (drops the final empty segment and a
`'\r'` directly before each `'\n'`): accumulator-based helper. -/
def rustLinesAux : List Char → List Char → List (List Char)
  | acc, [] => if acc.isEmpty then [] else [acc.reverse]
  | acc, '\n' :: rest =>
    (if acc.reverse.getLast? = some '\r' then acc.reverse.dropLast else acc.reverse)
      :: rustLinesAux [] rest
  | acc, c :: rest => rustLinesAux (c :: acc) rest

/-- Source `process_str`: split the string as `BufRead::lines` does and
run `process_buf` with the `"<string>"` label. -/
def process_str (fuel : Nat) (s : String) (ctx : Context) (env : Env) :
    Option (Except Error (String × Context)) :=
  process_buf fuel ((rustLinesAux [] s.data).map (fun l => ⟨l⟩)) "<string>" ctx env

/-! ## Specification-side definitions

These definitions follow the words of the specification (not the
source); they are used to state claims about the source-derived
definitions above. -/

/-- Spec-side: `name` occurs in `line` at position `i` as a whole word
(the characters immediately before and after the occurrence, when
present, are neither alphanumeric nor underscore). -/
def wholeWordAt (name line : List Char) (i : Nat) : Bool :=
  name.isPrefixOf (line.drop i) &&
  !endsWordChar (line.take i) &&
  !startsWordChar (line.drop (i + name.length))

/-- Spec-side: `name` occurs as a whole word somewhere in `line`. -/
def specWholeWordOccurs (name line : List Char) : Bool :=
  (List.range (line.length + 1)).any (fun i => wholeWordAt name line i)

/-- Spec-side: `b ++ name ++ a` is the decomposition of `line` at the *first*
occurrence of `name`, and that occurrence is a whole word. -/
def Eligible (name line b a : List Char) : Prop :=
  line = b ++ name ++ a ∧
  (∀ b' a', line = b' ++ name ++ a' → b.length ≤ b'.length) ∧
  endsWordChar b = false ∧ startsWordChar a = false

/-- Some macro-name replacement site exists: the first occurrence of
`name` in `line` is a whole word. -/
def EligibleSomewhere (name line : List Char) : Prop :=
  ∃ b a, Eligible name line b a

/-! ## Concrete fixtures for the closed statements -/

/-- An environment in which every external operation fails; used where
no external operation is exercised. -/
def envTrivial : Env :=
  ⟨fun _ => .error .PipeFailed, fun _ _ => .error .PipeFailed, fun _ => .error .IoError⟩

/-- A shell oracle knowing only that `echo hi` prints `"hi\n"`. -/
def envEcho : Env :=
  ⟨fun c => if c = "echo hi" then .ok "hi\n" else .error .PipeFailed,
   fun _ _ => .error .PipeFailed, fun _ => .error .IoError⟩

/-- A shell oracle knowing only that `printf hi` prints `"hi"`, with no
trailing newline. -/
def envPrintf : Env :=
  ⟨fun c => if c = "printf hi" then .ok "hi" else .error .PipeFailed,
   fun _ _ => .error .PipeFailed, fun _ => .error .IoError⟩

/-- A pipe oracle for the nested `#in` scenario: child `B` maps stdin
`"world\n"` to `"WB"`, child `A` maps stdin `"hello\nWB"` to
`"OUT\n"`. -/
def envNested : Env :=
  ⟨fun _ => .error .PipeFailed,
   fun cmd data =>
     if cmd = "B" ∧ data = "world\n" then .ok "WB"
     else if cmd = "A" ∧ data = "hello\nWB" then .ok "OUT\n"
     else .error .PipeFailed,
   fun _ => .error .IoError⟩

/-- A pipe oracle for a single open child `cat` that has received
`"data"` and will print `"meow\n"`. -/
def envPipe : Env :=
  ⟨fun _ => .error .PipeFailed,
   fun cmd data => if cmd = "cat" ∧ data = "data" then .ok "meow\n" else .error .PipeFailed,
   fun _ => .error .IoError⟩

/-- The empty context. -/
def ctxEmpty : Context := ⟨[], 0, false, false, []⟩

/-- A context whose macro table maps `Foo` to `Bar`. -/
def ctxFoo : Context := ⟨[("Foo", "Bar")], 0, false, false, []⟩

/-- An empty context inside one inactive conditional. -/
def ctxInactive : Context := ⟨[], 1, false, false, []⟩

/-- An empty context with exec commands allowed. -/
def ctxExecOn : Context := ⟨[], 0, false, true, []⟩

/-- A context with exec allowed and one open `cat` child that has
received `"data"`. -/
def ctxPipe : Context := ⟨[], 0, false, true, [⟨"cat", "data"⟩]⟩

/-! ## Helper lemmas -/

/-- Lemma: `splitFirst` splits at an occurrence, and that occurrence is the
first one: every other decomposition has a longer prefix. -/
theorem splitFirst_some {needle h b a : List Char}
    (hs : splitFirst needle h = some (b, a)) :
    h = b ++ needle ++ a ∧ ∀ b' a', h = b' ++ needle ++ a' → b.length ≤ b'.length := by
  induction h generalizing b a with
  | nil =>
    simp only [splitFirst] at hs
    split at hs
    · next hem =>
      obtain ⟨hb, ha⟩ := Prod.mk.injEq .. ▸ Option.some.injEq .. ▸ hs
      subst hb ha
      have : needle = [] := List.isEmpty_iff.mp hem
      subst this
      exact ⟨rfl, fun b' a' _ => Nat.zero_le _⟩
    · cases hs
  | cons c rest ih =>
    simp only [splitFirst] at hs
    split at hs
    · next hpre =>
      obtain ⟨hb, ha⟩ := Prod.mk.injEq .. ▸ Option.some.injEq .. ▸ hs
      subst hb ha
      obtain ⟨t, ht⟩ := List.isPrefixOf_iff_prefix.mp hpre
      constructor
      · conv_lhs => rw [← ht]
        rw [← ht, List.nil_append, List.drop_left]
      · exact fun b' a' _ => Nat.zero_le _
    · next hpre =>
      cases hsf : splitFirst needle rest with
      | none => rw [hsf] at hs; cases hs
      | some p =>
        obtain ⟨b0, a0⟩ := p
        rw [hsf] at hs
        simp only [Option.map_some', Option.some.injEq, Prod.mk.injEq] at hs
        obtain ⟨hb, ha⟩ := hs
        subst hb ha
        obtain ⟨hdec, hmin⟩ := ih hsf
        constructor
        · rw [List.cons_append, List.cons_append, ← hdec]
        · intro b' a' heq
          cases b' with
          | nil =>
            exfalso
            apply hpre
            exact List.isPrefixOf_iff_prefix.mpr ⟨a', by simpa using heq.symm⟩
          | cons c' b'' =>
            simp only [List.cons_append, List.cons.injEq] at heq
            simpa using Nat.succ_le_succ (hmin b'' a' heq.2)

/-- When `splitFirst` fails the needle does not occur at all. -/
theorem splitFirst_none {needle h : List Char} (hs : splitFirst needle h = none) :
    ∀ b a, h ≠ b ++ needle ++ a := by
  induction h with
  | nil =>
    simp only [splitFirst] at hs
    split at hs
    · cases hs
    · next hem =>
      intro b a heq
      have : needle = [] := by
        have := heq.symm
        simp only [List.append_eq_nil] at this
        exact this.1.2
      exact hem (by simp [this])
  | cons c rest ih =>
    simp only [splitFirst] at hs
    split at hs
    · cases hs
    · next hpre =>
      have hrest : splitFirst needle rest = none := by
        cases hsf : splitFirst needle rest with
        | none => rfl
        | some p => rw [hsf] at hs; cases hs
      intro b a heq
      cases b with
      | nil =>
        exact hpre ( List.isPrefixOf_iff_prefix.mpr ⟨a, by simpa using heq.symm⟩)
      | cons c' b'' =>
        simp only [List.cons_append, List.cons.injEq] at heq
        exact ih hrest b'' a heq.2

/-- A successful `macroStep` replaces the first occurrence of the
macro's name, and that occurrence is a whole word. -/
theorem macroStep_some_spec {line : List Char} {name value : String} {r : List Char}
    (h : macroStep line name value = some r) :
    ∃ b a, Eligible name.data line b a ∧ r = b ++ value.data ++ a := by
  unfold macroStep at h
  cases hsf : splitFirst name.data line with
  | none => rw [hsf] at h; cases h
  | some p =>
    obtain ⟨b, a⟩ := p
    rw [hsf] at h
    have h' : (if (endsWordChar b || startsWordChar a) = true then none
        else some (b ++ value.data ++ a)) = some r := h
    by_cases hbd : (endsWordChar b || startsWordChar a) = true
    · rw [if_pos hbd] at h'; cases h'
    · rw [if_neg hbd] at h'
      have hr := Option.some.inj h'
      obtain ⟨hdec, hmin⟩ := splitFirst_some hsf
      rw [Bool.not_eq_true, Bool.or_eq_false_iff] at hbd
      exact ⟨b, a, ⟨hdec, hmin, hbd.1, hbd.2⟩, hr.symm⟩

/-- A failing `macroStep` means the first occurrence of the macro's
name (if any) is not a whole word. -/
theorem macroStep_none_spec {line : List Char} {name value : String}
    (h : macroStep line name value = none) : ¬ EligibleSomewhere name.data line := by
  rintro ⟨b, a, hdec, hmin, hbf, haf⟩
  unfold macroStep at h
  cases hsf : splitFirst name.data line with
  | none => exact splitFirst_none hsf b a hdec
  | some p =>
    obtain ⟨b0, a0⟩ := p
    rw [hsf] at h
    have h' : (if (endsWordChar b0 || startsWordChar a0) = true then none
        else some (b0 ++ value.data ++ a0)) = none := h
    by_cases hbd : (endsWordChar b0 || startsWordChar a0) = true
    · obtain ⟨hdec0, hmin0⟩ := splitFirst_some hsf
      have hlen : b0.length = b.length :=
        Nat.le_antisymm (hmin0 b a hdec) (hmin b0 a0 hdec0)
      obtain ⟨hb0, hrest⟩ := List.append_inj
        (by rw [← List.append_assoc, ← hdec0, hdec, List.append_assoc]) hlen
      have ha0 : a0 = a := List.append_cancel_left hrest
      rw [hb0, ha0, hbf, haf] at hbd
      simp at hbd
    · rw [if_neg hbd] at h'; cases h'

/-- Routing an empty output changes nothing. -/
theorem routeOutput_empty (ctx : Context) : routeOutput "" ctx = ("", ctx) := by
  unfold routeOutput
  cases hs : ctx.in_stack with
  | nil => rfl
  | cons child rest =>
    simp only [String.append_empty]
    rw [show ({ child with stdinData := child.stdinData } : Child) = child from rfl, ← hs]

/-- Whenever routing happens with an open child, the line contributes
nothing to the result. -/
theorem routeOutput_fst_of_cons {out : String} {ctx : Context} {child : Child}
    {rest : List Child} (h : (routeOutput out ctx).2.in_stack = child :: rest) :
    (routeOutput out ctx).1 = "" := by
  unfold routeOutput at h ⊢
  cases hs : ctx.in_stack with
  | nil => simp [hs] at h
  | cons c cs => simp only [hs]

/-- A suppressed line (plain text or a non-conditional command while
the conditional stack is inactive) produces no output and leaves the
context unchanged. -/
theorem runLine_suppressed
    (recurse : String → Context → Option (Except Error (String × Context)))
    (sfuel : Nat) (l : Line) (ctx : Context) (env : Env)
    (h1 : ctx.inactive_stack > 0) (h2 : suppressedWhenInactive l = true) :
    runLine recurse sfuel l ctx env = some (.ok ("", ctx)) := by
  unfold runLine
  rw [if_pos ⟨h1, h2⟩]

/-- Every successful `process_line` result is a routed output. -/
theorem process_line_ok_shape {fuel : Nat} {line : String} {ctx : Context} {env : Env}
    {p : String × Context} (h : process_line fuel line ctx env = some (.ok p)) :
    ∃ out mid, p = routeOutput out mid := by
  cases fuel with
  | zero => cases h
  | succ n =>
    simp only [process_line] at h
    cases hcl : classify (stripLineEnd line.data) ctx with
    | error e => simp only [hcl] at h; simp at h
    | ok l =>
      simp only [hcl] at h
      cases hr : runLine (fun l2 c2 => process_line n l2 c2 env) (n + 1) l ctx env with
      | none => simp only [hr] at h; simp at h
      | some v =>
        simp only [hr] at h
        cases v with
        | error e => simp at h
        | ok q =>
          obtain ⟨out, mid⟩ := q
          simp only [Option.some.injEq, Except.ok.injEq] at h
          exact ⟨out, mid, h.symm⟩

/-- Unfolding `process_line` at positive fuel once the classification
is known. -/
theorem process_line_eq_of_classify {fuel : Nat} {line : String} {ctx : Context}
    {env : Env} {l : Line} (hcl : classify (stripLineEnd line.data) ctx = .ok l) :
    process_line (fuel + 1) line ctx env =
      match runLine (fun l2 c2 => process_line fuel l2 c2 env) (fuel + 1) l ctx env with
      | none => none
      | some (.error e) => some (.error e)
      | some (.ok (out, ctx2)) => some (.ok (routeOutput out ctx2)) := by
  simp only [process_line, hcl]

/-- Unfolding `process_line` when the classification errors. -/
theorem process_line_eq_of_classify_error {fuel : Nat} {line : String} {ctx : Context}
    {env : Env} {e : Error} (hcl : classify (stripLineEnd line.data) ctx = .error e) :
    process_line (fuel + 1) line ctx env = some (.error e) := by
  simp only [process_line, hcl]

/-- Appending further lines after a successful run continues from the
final context, offsetting indices by the prefix length. -/
theorem bufGo_append {pl : String → Context → Option (Except Error (String × Context))} :
    ∀ {pre : List String} {idx : Nat} {name : String} {ctx : Context} {s : String}
      {ctxMid : Context},
      bufGo pl pre idx name ctx = some (.ok (s, ctxMid)) →
      ∀ rest, bufGo pl (pre ++ rest) idx name ctx =
        match bufGo pl rest (idx + pre.length) name ctxMid with
        | none => none
        | some (.error e) => some (.error e)
        | some (.ok (r, c)) => some (.ok (s ++ r, c)) := by
  intro pre
  induction pre with
  | nil =>
    intro idx name ctx s ctxMid h rest
    simp only [bufGo, Option.some.injEq, Except.ok.injEq, Prod.mk.injEq] at h
    obtain ⟨hs, hctx⟩ := h
    subst hs hctx
    simp only [List.nil_append, List.length_nil, Nat.add_zero]
    cases hres : bufGo pl rest idx name ctx with
    | none => rfl
    | some v =>
      cases v with
      | error e => rfl
      | ok q =>
        obtain ⟨r, c⟩ := q
        rfl
  | cons l pre' ih =>
    intro idx name ctx s ctxMid h rest
    cases hpl : pl l ctx with
    | none => simp [bufGo, hpl] at h
    | some v =>
      cases v with
      | error e => simp [bufGo, hpl] at h
      | ok q =>
        obtain ⟨s1, c1⟩ := q
        simp only [bufGo, hpl] at h
        cases hb : bufGo pl pre' (idx + 1) name c1 with
        | none => rw [hb] at h; simp at h
        | some v2 =>
          cases v2 with
          | error e => rw [hb] at h; simp at h
          | ok q2 =>
            obtain ⟨s2, c2⟩ := q2
            rw [hb] at h
            simp only [Option.some.injEq, Except.ok.injEq, Prod.mk.injEq] at h
            obtain ⟨hs, hc2⟩ := h
            subst hc2
            have hgoal := ih hb rest
            have hidx : idx + 1 + pre'.length = idx + (pre'.length + 1) := by omega
            rw [hidx] at hgoal
            simp only [List.cons_append, bufGo, hpl]
            rw [show pre'.append rest = pre' ++ rest from rfl, hgoal,
              List.length_cons]
            cases hres : bufGo pl rest (idx + (pre'.length + 1)) name c2 with
            | none => rfl
            | some v3 =>
              cases v3 with
              | error e => rfl
              | ok q3 =>
                obtain ⟨r, c⟩ := q3
                show some (Except.ok (s1 ++ (s2 ++ r), c)) = some (Except.ok (s ++ r, c))
                rw [← hs, String.append_assoc]

/-- Decomposition of a successful `List.findSome?`: the earlier
elements all fail. -/
theorem findSome?_eq_some_split {α β : Type _} {f : α → Option β} :
    ∀ {l : List α} {b : β}, l.findSome? f = some b →
      ∃ pre x post, l = pre ++ x :: post ∧ (∀ q ∈ pre, f q = none) ∧ f x = some b := by
  intro l
  induction l with
  | nil => intro b h; simp [List.findSome?] at h
  | cons x xs ih =>
    intro b h
    rw [List.findSome?_cons] at h
    cases hfx : f x with
    | some b0 =>
      rw [hfx] at h
      exact ⟨[], x, xs, rfl, by simp, by rw [hfx]; exact h⟩
    | none =>
      rw [hfx] at h
      obtain ⟨pre, y, post, hl, hpre, hy⟩ := ih h
      refine ⟨x :: pre, y, post, by rw [hl]; rfl, ?_, hy⟩
      intro q hq
      rcases List.mem_cons.mp hq with hq | hq
      · rw [hq]; exact hfx
      · exact hpre q hq

/-- A character named by `getLast?` is a member of the list. -/
theorem mem_of_getLast?_eq_some {l : List Char} {c : Char} (h : l.getLast? = some c) :
    c ∈ l := by
  obtain ⟨hne, heq⟩ := List.mem_getLast?_eq_getLast (x := c) (Option.mem_def.mpr h)
  rw [heq]
  exact List.getLast_mem hne

/-- One replacement step preserves "exactly one `'\n'`, at the end",
provided no macro name or value contains `'\n'`. -/
theorem replace_next_macro_newline_inv {l l2 : List Char} {macros : List (String × String)}
    (h : replace_next_macro l macros = some l2)
    (hm : ∀ nv ∈ macros, '\n' ∉ (nv.1 : String).data ∧ '\n' ∉ (nv.2 : String).data)
    (hc : l.count '\n' = 1) (hl : l.getLast? = some '\n') :
    l2.count '\n' = 1 ∧ l2.getLast? = some '\n' := by
  obtain ⟨pre, nv, post, hsplit, _, hnv⟩ := findSome?_eq_some_split h
  have hmem : nv ∈ macros := by
    rw [hsplit]
    exact List.mem_append_right _ (List.mem_cons_self _ _)
  obtain ⟨hn1, hn2⟩ := hm nv hmem
  obtain ⟨b, a, ⟨hdec, hmin, _, _⟩, hr⟩ := macroStep_some_spec hnv
  have hlnil : l ≠ [] := by
    intro hnil
    rw [hnil] at hc
    simp at hc
  have hane : a ≠ [] := by
    intro ha
    subst ha
    by_cases hname : (nv.1 : String).data = []
    · rw [hname] at hdec hmin
      have hb0 : b.length ≤ 0 := by
        have := hmin [] l (by simp)
        simpa using this
      have hb : b = [] := List.length_eq_zero.mp (Nat.le_zero.mp hb0)
      rw [hb] at hdec
      simp at hdec
      exact hlnil hdec
    · have hlast : l.getLast? = (nv.1 : String).data.getLast? := by
        rw [hdec]
        simp only [List.append_nil]
        exact List.getLast?_append_of_ne_nil b hname
      rw [hlast] at hl
      exact hn1 (mem_of_getLast?_eq_some hl)
  constructor
  · have hcl : l.count '\n' =
        b.count '\n' + (nv.1 : String).data.count '\n' + a.count '\n' := by
      rw [hdec, List.count_append, List.count_append]
    have hcl2 : l2.count '\n' =
        b.count '\n' + (nv.2 : String).data.count '\n' + a.count '\n' := by
      rw [hr, List.count_append, List.count_append]
    rw [hcl2, List.count_eq_zero.mpr hn2]
    rw [hcl, List.count_eq_zero.mpr hn1] at hc
    simpa using hc
  · have h1 : l2.getLast? = a.getLast? := by
      rw [hr]
      exact List.getLast?_append_of_ne_nil _ hane
    have h2 : l.getLast? = a.getLast? := by
      rw [hdec]
      exact List.getLast?_append_of_ne_nil _ hane
    rw [h1, ← h2, hl]

/-- The substitution loop preserves "exactly one `'\n'`, at the end". -/
theorem substituteMacros_newline_inv :
    ∀ {fuel : Nat} {l : List Char} {macros : List (String × String)} {r : List Char},
      substituteMacros fuel l macros = some r →
      (∀ nv ∈ macros, '\n' ∉ (nv.1 : String).data ∧ '\n' ∉ (nv.2 : String).data) →
      l.count '\n' = 1 → l.getLast? = some '\n' →
      r.count '\n' = 1 ∧ r.getLast? = some '\n' := by
  intro fuel
  induction fuel with
  | zero => intro l m r h _ _ _; cases h
  | succ n ih =>
    intro l m r h hm hc hl
    simp only [substituteMacros] at h
    cases hrep : replace_next_macro l m with
    | some l2 =>
      rw [hrep] at h
      obtain ⟨hc2, hl2⟩ := replace_next_macro_newline_inv hrep hm hc hl
      exact ih h hm hc2 hl2
    | none =>
      rw [hrep] at h
      cases h
      exact ⟨hc, hl⟩

/-- When the substitution loop returns, its result is a fixpoint: no
further replacement applies (helper for the claim theorems). -/
theorem substituteMacros_fix :
    ∀ {fuel : Nat} {l : List Char} {macros : List (String × String)} {r : List Char},
      substituteMacros fuel l macros = some r → replace_next_macro r macros = none := by
  intro fuel
  induction fuel with
  | zero => intro l m r h; cases h
  | succ n ih =>
    intro l m r h
    simp only [substituteMacros] at h
    cases hr : replace_next_macro l m with
    | some l2 => rw [hr] at h; exact ih h
    | none => rw [hr] at h; cases h; exact hr

/-! ## Claim theorems -/

/-- C2: the claim states that at most one branch of a conditional group
is ever active and that once any branch has fired, every later
`#elifdef`/`#elifndef`/`#else` branch of the same group stays
suppressed.  The code violates this: `process_elifdef` reactivates a
branch without recording that the group has been satisfied (`used_if`
is only ever set by `process_ifdef`), so in the group below, with `A`
defined and `X` undefined, both the `#elifdef A` branch (`b`) and the
`#else` branch (`d`) are emitted.  This contradicts the documented
purpose of `Context.used_if` ("whether the current if statement has
been accepted; this is for if groups with over three parts"). -/
theorem C2_two_branches_fire :
    process_buf 3 ["#define A", "#ifdef X", "a", "#elifdef A", "b", "#elifdef B", "c",
        "#else", "d", "#endif"] "<string>" ctxEmpty envTrivial
      = some (.ok ("b\nd\n", ⟨[("A", "")], 0, false, false, []⟩)) := rfl

/-- C1 counterexample: the claim states that a whole-word occurrence of
a defined macro name is replaced even when an earlier occurrence of the
same name in the line is embedded inside a larger identifier, and that
processing terminates exactly when no macro name occurs as a whole word
anywhere in the line.  With `Foo → Bar` the line `"_Foo Foo"` is
returned unchanged — processing terminates although `Foo` still occurs
as a whole word in the result. -/
theorem C1_counterexample :
    process_line 3 "_Foo Foo" ctxFoo envTrivial = some (.ok ("_Foo Foo\n", ctxFoo)) ∧
    specWholeWordOccurs "Foo".data "_Foo Foo\n".data = true ∧
    ("_Foo Foo\n" : String) ≠ "_Foo Bar\n" :=
  ⟨rfl, by decide, by decide⟩

/-- C1 (amended): substitution repeatedly replaces, for the first macro
in table order whose *first* occurrence in the line is a whole word,
that first occurrence by the macro's value; it rescans the entire new
line after each replacement; and it terminates exactly when, for every
macro, the name's first occurrence (if any) is not a whole word — a
later whole-word occurrence is not considered when the first occurrence
is embedded in a larger identifier. -/
theorem C1_first_occurrence_replacement :
    ∀ (macros : List (String × String)) (line : List Char),
      ( replace_next_macro line macros = none ↔
        ∀ nv ∈ macros, ¬ EligibleSomewhere nv.1.data line) ∧
      (∀ r, replace_next_macro line macros = some r →
        ∃ pre nv post b a, macros = pre ++ nv :: post ∧
          (∀ q ∈ pre, ¬ EligibleSomewhere q.1.data line) ∧
          Eligible nv.1.data line b a ∧ r = b ++ nv.2.data ++ a) ∧
      (∀ fuel l r, substituteMacros fuel l macros = some r →
        replace_next_macro r macros = none) := by
  intro macros line
  refine ⟨⟨?_, ?_⟩, ?_, ?_⟩
  · intro h nv hmem
    unfold replace_next_macro at h
    exact macroStep_none_spec (List.findSome?_eq_none_iff.mp h nv hmem)
  · intro hall
    unfold replace_next_macro
    rw [List.findSome?_eq_none_iff]
    intro nv hmem
    cases hms : macroStep line nv.1 nv.2 with
    | none => rfl
    | some r =>
      obtain ⟨b, a, he, _⟩ := macroStep_some_spec hms
      exact absurd ⟨b, a, he⟩ (hall nv hmem)
  · intro r h
    unfold replace_next_macro at h
    obtain ⟨pre, nv, post, hsplit, hpre, hnv⟩ := findSome?_eq_some_split h
    obtain ⟨b, a, he, hr⟩ := macroStep_some_spec hnv
    exact ⟨pre, nv, post, b, a, hsplit, fun q hq => macroStep_none_spec (hpre q hq), he, hr⟩
  · intro fuel l r h
    exact substituteMacros_fix h

/-- C1 witness: the amended characterisation applied at a concrete
replacement. -/
theorem C1_first_occurrence_replacement_witness :
    ∃ pre nv post b a, [(("A" : String), ("B" : String))] = pre ++ nv :: post ∧
      (∀ q ∈ pre, ¬ EligibleSomewhere q.1.data "x A y\n".data) ∧
      Eligible nv.1.data "x A y\n".data b a ∧
      "x B y\n".data = b ++ nv.2.data ++ a :=
  (C1_first_occurrence_replacement [("A", "B")] "x A y\n".data).2.1 "x B y\n".data
    (by decide)

/-- C9: a macro name occurring as a substring of a larger identifier is
never the occurrence substituted — every successful replacement step
rewrites a decomposition whose boundary characters are not word
characters — and with `Foo → Bar` the lines `"AFooB"`, `"Foo_"`,
`"_Foo"` pass through unchanged apart from the trailing newline while
`"One Foo Two"` becomes `"One Bar Two\n"`. -/
theorem C9_word_boundary :
    (∀ (line : List Char) (macros : List (String × String)) (r : List Char),
      replace_next_macro line macros = some r →
      ∃ name value b a, (name, value) ∈ macros ∧ line = b ++ name.data ++ a ∧
        endsWordChar b = false ∧ startsWordChar a = false ∧
        r = b ++ value.data ++ a) ∧
    process_line 3 "AFooB" ctxFoo envTrivial = some (.ok ("AFooB\n", ctxFoo)) ∧
    process_line 3 "Foo_" ctxFoo envTrivial = some (.ok ("Foo_\n", ctxFoo)) ∧
    process_line 3 "_Foo" ctxFoo envTrivial = some (.ok ("_Foo\n", ctxFoo)) ∧
    process_line 3 "One Foo Two" ctxFoo envTrivial = some (.ok ("One Bar Two\n", ctxFoo)) := by
  refine ⟨?_, rfl, rfl, rfl, rfl⟩
  intro line macros r h
  unfold replace_next_macro at h
  obtain ⟨pre, nv, post, hsplit, _, hnv⟩ := findSome?_eq_some_split h
  obtain ⟨b, a, ⟨hdec, _, hbf, haf⟩, hr⟩ := macroStep_some_spec hnv
  refine ⟨nv.1, nv.2, b, a, ?_, hdec, hbf, haf, hr⟩
  rw [hsplit]
  exact List.mem_append_right _ (List.mem_cons_self _ _)

/-- C9 witness: the boundary characterisation applied at a concrete
replacement. -/
theorem C9_word_boundary_witness :
    ∃ name value b a, (name, value) ∈ [(("Foo" : String), ("Bar" : String))] ∧
      "One Foo Two\n".data = b ++ name.data ++ a ∧
      endsWordChar b = false ∧ startsWordChar a = false ∧
      "One Bar Two\n".data = b ++ value.data ++ a :=
  C9_word_boundary.1 "One Foo Two\n".data [("Foo", "Bar")] "One Bar Two\n".data
    (by decide)

/-- Rebuilding a string from its characters is the identity. -/
theorem string_mk_data (s : String) : (⟨s.data⟩ : String) = s := rfl

/-- A line without `'\n'` is unchanged by terminator stripping. -/
theorem stripLineEnd_of_not_newline {l : List Char} (h : '\n' ∉ l) :
    stripLineEnd l = l := by
  unfold stripLineEnd
  rw [if_neg (fun hl => h (mem_of_getLast?_eq_some hl))]

/-- Cons-step for non-membership. -/
theorem notMemCons {c d : Char} {l : List Char} (h1 : c ≠ d) (h2 : c ∉ l) :
    c ∉ d :: l := by
  intro hmem
  rcases List.mem_cons.mp hmem with h | h
  · exact h1 h
  · exact h2 h

/-- A line whose first character is not the marker is classified as
plain text. -/
theorem classify_not_hash {l : List Char} {ctx : Context} (h : l.head? ≠ some '#') :
    classify l ctx = .ok (.Text l) := by
  cases l with
  | nil => rfl
  | cons c rest =>
    have hc : c ≠ '#' := by simpa using h
    unfold classify
    split
    · next heq => exact absurd (List.cons.injEq .. ▸ heq).1 hc
    · next heq => exact absurd (List.cons.injEq .. ▸ heq).1 hc
    · rfl

/-- The characters of a classified `Text` payload come from the input
line. -/
theorem classify_text_subchars {L t : List Char} {ctx : Context}
    (h : classify L ctx = .ok (.Text t)) (hn : '\n' ∉ L) : '\n' ∉ t := by
  unfold classify at h
  split at h
  · next rest =>
    have ht : t = '#' :: rest := by
      have := Except.ok.inj h
      exact (Line.Text.inj this).symm
    subst ht
    exact fun hm => hn (List.mem_cons_of_mem _ hm)
  · next rest =>
    split at h
    split at h
    · exact absurd (Except.ok.inj h) (by simp)
    · cases h
  · have ht : t = L := by
      have := Except.ok.inj h
      exact (Line.Text.inj this).symm
    subst ht
    exact hn

/-- Running a plain-text line never produces an error. -/
theorem runLine_text_no_error
    (recurse : String → Context → Option (Except Error (String × Context)))
    (sfuel : Nat) (t : List Char) (ctx : Context) (env : Env) (e : Error) :
    runLine recurse sfuel (.Text t) ctx env ≠ some (.error e) := by
  unfold runLine
  by_cases hsup : ctx.inactive_stack > 0 ∧ suppressedWhenInactive (.Text t) = true
  · rw [if_pos hsup]; simp
  · rw [if_neg hsup]
    cases hsub : substituteMacros sfuel (t ++ ['\n']) ctx.macros with
    | none => simp [hsub]
    | some r => simp [hsub]

/-- Routed output is either swallowed by a child or passed through. -/
theorem routeOutput_fst_cases (out : String) (ctx : Context) :
    (routeOutput out ctx).1 = "" ∨ (routeOutput out ctx).1 = out := by
  unfold routeOutput
  cases hs : ctx.in_stack with
  | nil => right; rfl
  | cons c cs => left; rfl

/-- Every command other than `#exec`/`#endin`/`#include` produces the
empty string as its immediate output when it succeeds. -/
theorem runCommand_nonexec_out
    {recurse : String → Context → Option (Except Error (String × Context))}
    {id : CmdId} {content : List Char} {ctx : Context} {env : Env} {o : String}
    {mid : Context}
    (hid1 : id ≠ CmdId.cExec) (hid2 : id ≠ CmdId.cEndin) (hid3 : id ≠ CmdId.cInclude)
    (h : runCommand recurse id content ctx env = some (.ok (o, mid))) : o = "" := by
  cases id with
  | cExec => exact absurd rfl hid1
  | cEndin => exact absurd rfl hid2
  | cInclude => exact absurd rfl hid3
  | cIn =>
    simp only [runCommand, process_in, Option.some.injEq, Except.ok.injEq,
      Prod.mk.injEq] at h
    exact h.1.symm
  | cDefine =>
    simp only [runCommand, process_define, Option.some.injEq, Except.ok.injEq,
      Prod.mk.injEq] at h
    exact h.1.symm
  | cUndef =>
    simp only [runCommand, process_undef, Option.some.injEq, Except.ok.injEq,
      Prod.mk.injEq] at h
    exact h.1.symm
  | cIfdef =>
    simp only [runCommand, process_ifdef, Option.some.injEq, Except.ok.injEq,
      Prod.mk.injEq] at h
    exact h.1.symm
  | cIfndef =>
    simp only [runCommand, process_ifdef, Option.some.injEq, Except.ok.injEq,
      Prod.mk.injEq] at h
    exact h.1.symm
  | cElifdef =>
    simp only [runCommand, process_elifdef, Option.some.injEq, Except.ok.injEq,
      Prod.mk.injEq] at h
    exact h.1.symm
  | cElifndef =>
    simp only [runCommand, process_elifdef, Option.some.injEq, Except.ok.injEq,
      Prod.mk.injEq] at h
    exact h.1.symm
  | cElse =>
    simp only [runCommand, process_else] at h
    split at h
    · simp at h
    · simp only [Option.some.injEq, Except.ok.injEq, Prod.mk.injEq] at h
      exact h.1.symm
  | cEndif =>
    simp only [runCommand, process_endif] at h
    split at h
    · simp at h
    · simp only [Option.some.injEq, Except.ok.injEq, Prod.mk.injEq] at h
      exact h.1.symm

/-- C4 counterexample: the claim states that the command marker is
recognised at the *trimmed* line start, so that a line whose first
non-whitespace character is `#` is parsed as a command (or, doubled, as
the literal-hash escape).  The code only recognises `#` as the line's
very first character: `" ##x"` passes through unchanged (no escape is
consumed) and `" #bogus"` is plain text rather than an invalid-command
error. -/
theorem C4_counterexample :
    process_line 2 " ##x" ctxEmpty envTrivial = some (.ok (" ##x\n", ctxEmpty)) ∧
    (" ##x\n" : String) ≠ " #x\n" ∧
    process_line 2 " #bogus" ctxEmpty envTrivial
      ≠ some (.error (.InvalidCommand "bogus")) :=
  ⟨rfl, by decide, by intro h; exact Except.noConfusion (Option.some.inj (rfl.trans h))⟩

/-- C4 (amended): the command marker is recognised only as the line's
very first character (leading whitespace makes the line plain text and
such a line never produces an error); whitespace *after* the marker is
allowed before the command name; a second immediate marker is the
literal-hash escape. -/
theorem C4_marker_first_char :
    (∀ (fuel : Nat) (line : String) (ctx : Context) (env : Env) (e : Error),
      (stripLineEnd line.data).head? ≠ some '#' →
      process_line (fuel + 1) line ctx env ≠ some (.error e)) ∧
    process_line 2 " #bogus" ctxEmpty envTrivial = some (.ok (" #bogus\n", ctxEmpty)) ∧
    process_line 2 "#bogus" ctxEmpty envTrivial
      = some (.error (.InvalidCommand "bogus")) ∧
    process_line 2 "# define X Y" ctxEmpty envTrivial
      = some (.ok ("", ⟨[("X", "Y")], 0, false, false, []⟩)) ∧
    process_line 2 "##x" ctxEmpty envTrivial = some (.ok ("#x\n", ctxEmpty)) := by
  refine ⟨?_, rfl, rfl, rfl, rfl⟩
  intro fuel line ctx env e hhead h
  have hcl : classify (stripLineEnd line.data) ctx
      = .ok (.Text (stripLineEnd line.data)) := classify_not_hash hhead
  rw [process_line_eq_of_classify hcl] at h
  cases hr : runLine (fun l2 c2 => process_line fuel l2 c2 env) (fuel + 1)
      (.Text (stripLineEnd line.data)) ctx env with
  | none => simp only [hr] at h; simp at h
  | some v =>
    cases v with
    | error e2 => exact runLine_text_no_error _ _ _ _ _ _ hr
    | ok p =>
      obtain ⟨o, mid⟩ := p
      simp only [hr] at h
      simp at h

/-- C4 witness: a marker-free line never errors. -/
theorem C4_marker_first_char_witness :
    process_line 1 "hello" ctxEmpty envTrivial ≠ some (.error .PipeFailed) :=
  C4_marker_first_char.1 0 "hello" ctxEmpty envTrivial .PipeFailed (by decide)

/-- C3: with exec permission disabled, `#exec`/`#in`/`#endin` lines
make `process_line` return an `InvalidCommand` error carrying the
command name (the exec family is treated as unknown, not silently
ignored); with exec permission enabled the commands are dispatched to
their handlers, so `#exec echo hi` produces `"hi\n"`. -/
theorem C3_exec_gating :
    (∀ (fuel : Nat) (m : List (String × String)) (i : Nat) (u : Bool)
        (st : List Child) (env : Env),
      process_line (fuel + 1) "#exec echo hi" ⟨m, i, u, false, st⟩ env
          = some (.error (.InvalidCommand "exec")) ∧
      process_line (fuel + 1) "#in sed -n p" ⟨m, i, u, false, st⟩ env
          = some (.error (.InvalidCommand "in")) ∧
      process_line (fuel + 1) "#endin" ⟨m, i, u, false, st⟩ env
          = some (.error (.InvalidCommand "endin"))) ∧
    (∀ (fuel : Nat) (m : List (String × String)) (u : Bool) (env : Env),
      env.exec_out "echo hi" = .ok "hi\n" →
      process_line (fuel + 1) "#exec echo hi" ⟨m, 0, u, true, []⟩ env
        = some (.ok ("hi\n", ⟨m, 0, u, true, []⟩))) := by
  constructor
  · intro fuel m i u st env
    exact ⟨rfl, rfl, rfl⟩
  · intro fuel m u env hexec
    have hcl : classify (stripLineEnd "#exec echo hi".data)
        (⟨m, 0, u, true, []⟩ : Context)
        = .ok (.Command ⟨"exec", true, false, .cExec⟩ "echo hi".data) := rfl
    rw [process_line_eq_of_classify hcl]
    have h2 : runLine (fun l2 c2 => process_line fuel l2 c2 env) (fuel + 1)
        (.Command ⟨"exec", true, false, .cExec⟩ "echo hi".data)
        (⟨m, 0, u, true, []⟩ : Context) env
        = some ((env.exec_out "echo hi").map
            (fun s => (s, (⟨m, 0, u, true, []⟩ : Context)))) := rfl
    rw [h2, hexec]
    rfl

/-- C3 witness: concrete instances of both halves. -/
theorem C3_exec_gating_witness :
    process_line 1 "#exec echo hi" ⟨[], 3, true, false, []⟩ envTrivial
      = some (.error (.InvalidCommand "exec")) ∧
    process_line 1 "#exec echo hi" ⟨[], 0, false, true, []⟩ envEcho
      = some (.ok ("hi\n", ⟨[], 0, false, true, []⟩)) :=
  ⟨(C3_exec_gating.1 0 [] 3 true [] envTrivial).1,
   C3_exec_gating.2 0 [] false envEcho (by rfl)⟩

/-- C10: command classification happens before the inactive-conditional
check — while the inactive depth is positive, a `#`-line whose command
name is not in the effective registry (including the exec family with
exec permission disabled) still makes `process_line` return the
`InvalidCommand` error rather than being suppressed. -/
theorem C10_classify_before_suppression :
    (∀ (fuel : Nat) (line : String) (ctx : Context) (env : Env) (n : String),
      ctx.inactive_stack > 0 →
      classify (stripLineEnd line.data) ctx = .error (.InvalidCommand n) →
      process_line (fuel + 1) line ctx env = some (.error (.InvalidCommand n))) ∧
    (∀ (fuel : Nat) (m : List (String × String)) (d : Nat) (u : Bool)
        (st : List Child) (env : Env),
      process_line (fuel + 1) "#exec echo hi" ⟨m, d + 1, u, false, st⟩ env
        = some (.error (.InvalidCommand "exec")) ∧
      process_line (fuel + 1) "#bogus" ⟨m, d + 1, u, false, st⟩ env
        = some (.error (.InvalidCommand "bogus"))) := by
  constructor
  · intro fuel line ctx env n _ hcl
    exact process_line_eq_of_classify_error hcl
  · intro fuel m d u st env
    exact ⟨rfl, rfl⟩

/-- C10 witness: a bogus command inside a suppressed region still
errors. -/
theorem C10_classify_before_suppression_witness :
    process_line 1 "#nope" ⟨[], 2, false, false, []⟩ envTrivial
      = some (.error (.InvalidCommand "nope")) :=
  C10_classify_before_suppression.1 0 "#nope" ⟨[], 2, false, false, []⟩ envTrivial
    "nope" (by decide) (by rfl)

/-- C6: while the inactive conditional depth is positive, every plain
text line and every non-conditional command line (one whose registry
entry has `ignored_by_if: false` — `#define`, `#undef`, `#include`,
`#exec`, `#in`, `#endin`) produces empty output and leaves the context
(macro table, pipe stack, exec flag, conditional counters) unchanged;
only the six conditional-control commands escape this suppression. -/
theorem C6_inactive_frame :
    ∀ (fuel : Nat) (line : String) (ctx : Context) (env : Env) (k : Line),
      ctx.inactive_stack > 0 →
      classify (stripLineEnd line.data) ctx = .ok k →
      suppressedWhenInactive k = true →
      process_line (fuel + 1) line ctx env = some (.ok ("", ctx)) := by
  intro fuel line ctx env k hd hcl hsup
  rw [process_line_eq_of_classify hcl,
    runLine_suppressed (fun l2 c2 => process_line fuel l2 c2 env) (fuel + 1) k ctx env
      hd hsup]
  show some (Except.ok (routeOutput "" ctx)) = some (Except.ok (("" : String), ctx))
  rw [routeOutput_empty]

/-- C6 witness: a plain text line inside an inactive conditional. -/
theorem C6_inactive_frame_witness :
    process_line 1 "hello" ctxInactive envTrivial = some (.ok ("", ctxInactive)) :=
  C6_inactive_frame 0 "hello" ctxInactive envTrivial (.Text "hello".data)
    (by decide) (by rfl) (by rfl)

/-- C7: whenever a line's processing succeeds and leaves the pipe stack
nonempty, the line contributed the empty string to the overall result
(its output went to the innermost child); `#endin` pops exactly the top
child and uses that child's captured stdout as the line's own output
(routed to the next child out, if any); and in the nested scenario the
intervening text reaches only the innermost child, whose output feeds
the outer child. -/
theorem C7_pipe_routing :
    (∀ (fuel : Nat) (line : String) (ctx : Context) (env : Env) (out : String)
        (ctx' : Context) (child : Child) (rest : List Child),
      process_line fuel line ctx env = some (.ok (out, ctx')) →
      ctx'.in_stack = child :: rest → out = "") ∧
    (∀ (fuel : Nat) (m : List (String × String)) (u : Bool) (child : Child)
        (rest : List Child) (env : Env) (s : String),
      env.pipe_out child.cmd child.stdinData = .ok s →
      process_line (fuel + 1) "#endin" ⟨m, 0, u, true, child :: rest⟩ env
        = some (.ok (routeOutput s ⟨m, 0, u, true, rest⟩))) ∧
    process_buf 2 ["#in A", "hello", "#in B", "world", "#endin", "#endin"] "<string>"
      ctxExecOn envNested = some (.ok ("OUT\n", ctxExecOn)) := by
  refine ⟨?_, ?_, rfl⟩
  · intro fuel line ctx env out ctx' child rest h hst
    obtain ⟨o, mid, hp⟩ := process_line_ok_shape h
    have h1 : out = (routeOutput o mid).1 := congrArg Prod.fst hp
    have h2 : ctx' = (routeOutput o mid).2 := congrArg Prod.snd hp
    rw [h2] at hst
    rw [h1]
    exact routeOutput_fst_of_cons hst
  · intro fuel m u child rest env s hpipe
    have hcl : classify (stripLineEnd "#endin".data)
        (⟨m, 0, u, true, child :: rest⟩ : Context)
        = .ok (.Command ⟨"endin", true, false, .cEndin⟩ []) := rfl
    rw [process_line_eq_of_classify hcl]
    have h2 : runLine (fun l2 c2 => process_line fuel l2 c2 env) (fuel + 1)
        (.Command ⟨"endin", true, false, .cEndin⟩ [])
        (⟨m, 0, u, true, child :: rest⟩ : Context) env
        = some ((env.pipe_out child.cmd child.stdinData).map
            (fun s2 => (s2, (⟨m, 0, u, true, rest⟩ : Context)))) := rfl
    rw [h2, hpipe]
    rfl

/-- C7 witness: popping the single open child returns its captured
output. -/
theorem C7_pipe_routing_witness :
    process_line 1 "#endin" ctxPipe envPipe
      = some (.ok (routeOutput "meow\n" ⟨[], 0, false, true, []⟩)) :=
  C7_pipe_routing.2.1 0 [] false ⟨"cat", "data"⟩ [] envPipe "meow\n" (by rfl)

/-- C8: when per-line processing fails on the line after a successful
prefix, `process_buf` returns that line's error wrapped with the source
label and the 0-based index of the failing line, independently of the
lines that follow (they are not processed), and no output is returned
alongside the error. -/
theorem C8_error_wrapping :
    ∀ (fuel : Nat) (pre : List String) (bad : String) (post : List String)
      (name : String) (ctx : Context) (env : Env) (sOut : String)
      (ctxMid : Context) (e : Error),
      process_buf fuel pre name ctx env = some (.ok (sOut, ctxMid)) →
      process_line fuel bad ctxMid env = some (.error e) →
      process_buf fuel (pre ++ bad :: post) name ctx env
        = some (.error (.FileError name pre.length e)) := by
  intro fuel pre bad post name ctx env sOut ctxMid e hpre hbad
  unfold process_buf at hpre ⊢
  rw [bufGo_append hpre (bad :: post)]
  have hb : bufGo (fun l c => process_line fuel l c env) (bad :: post)
      (0 + pre.length) name ctxMid
      = some (.error (.FileError name (0 + pre.length) e)) := by
    simp only [bufGo, hbad]
  rw [hb]
  show some (Except.error (Error.FileError name (0 + pre.length) e))
      = some (Except.error (Error.FileError name pre.length e))
  rw [Nat.zero_add]

/-- C8 witness: a failing second line aborts with a wrapped error. -/
theorem C8_error_wrapping_witness :
    process_buf 2 ["one", "#bad", "two"] "<string>" ctxEmpty envTrivial
      = some (.error (.FileError "<string>" 1 (.InvalidCommand "bad"))) :=
  C8_error_wrapping 2 ["one"] "#bad" ["two"] "<string>" ctxEmpty envTrivial
    "one\n" ctxEmpty (.InvalidCommand "bad") (by rfl) (by rfl)

/-- C5 counterexample: the claim states that a successful
`process_line` result is empty or ends with exactly one line
terminator, including for `#exec` lines.  The code passes the child's
captured stdout through verbatim: with a shell whose `printf hi` writes
`"hi"`, the `#exec printf hi` line returns the nonempty string `"hi"`
with no trailing terminator. -/
theorem C5_counterexample :
    process_line 2 "#exec printf hi" ctxExecOn envPrintf
      = some (.ok ("hi", ctxExecOn)) ∧
    ("hi" : String) ≠ "" ∧ "hi".data.getLast? ≠ some '\n' :=
  ⟨rfl, by decide, by decide⟩

/-- C5 (amended): for every single line whose processing succeeds, if
the line is plain text or a literal-hash escape, or a command other
than `#exec`/`#endin`/`#include` (whose child or file output is passed
through verbatim), and no macro name or value contains a line
terminator, then the returned string is either empty or ends with
exactly one trailing line terminator. -/
theorem C5_trailing_newline :
    ∀ (fuel : Nat) (line : String) (ctx : Context) (env : Env) (out : String)
      (ctx' : Context),
      process_line (fuel + 1) line ctx env = some (.ok (out, ctx')) →
      '\n' ∉ stripLineEnd line.data →
      (∀ nv ∈ ctx.macros, '\n' ∉ nv.1.data ∧ '\n' ∉ nv.2.data) →
      (∀ c content, classify (stripLineEnd line.data) ctx = .ok (.Command c content) →
        c.execute ≠ CmdId.cExec ∧ c.execute ≠ CmdId.cEndin ∧
          c.execute ≠ CmdId.cInclude) →
      out = "" ∨ (out.data.getLast? = some '\n' ∧ out.data.count '\n' = 1) := by
  intro fuel line ctx env out ctx' h hnl hm hcmd
  simp only [process_line] at h
  cases hcl : classify (stripLineEnd line.data) ctx with
  | error e => simp only [hcl] at h; simp at h
  | ok k =>
    simp only [hcl] at h
    cases hr : runLine (fun l2 c2 => process_line fuel l2 c2 env) (fuel + 1) k ctx env with
    | none => simp only [hr] at h; simp at h
    | some v =>
      simp only [hr] at h
      cases v with
      | error e => simp at h
      | ok p =>
        obtain ⟨o, mid⟩ := p
        simp only [Option.some.injEq, Except.ok.injEq] at h
        have hout : out = (routeOutput o mid).1 := (congrArg Prod.fst h).symm
        unfold runLine at hr
        by_cases hsup : ctx.inactive_stack > 0 ∧ suppressedWhenInactive k = true
        · rw [if_pos hsup] at hr
          simp only [Option.some.injEq, Except.ok.injEq, Prod.mk.injEq] at hr
          left
          rw [hout, ← hr.1, routeOutput_empty]
        · rw [if_neg hsup] at hr
          cases k with
          | Text t =>
            cases hsub : substituteMacros (fuel + 1) (t ++ ['\n']) ctx.macros with
            | none => simp [hsub] at hr
            | some r =>
              simp only [hsub, Option.some.injEq, Except.ok.injEq, Prod.mk.injEq] at hr
              have ht : '\n' ∉ t := classify_text_subchars hcl hnl
              have hinv := substituteMacros_newline_inv hsub hm
                (by
                  rw [List.count_append, List.count_eq_zero.mpr ht]
                  decide)
                (by
                  rw [List.getLast?_append_of_ne_nil t (by simp)]
                  rfl)
              rcases routeOutput_fst_cases o mid with hcase | hcase
              · left; rw [hout, hcase]
              · right
                rw [hout, hcase, ← hr.1]
                exact ⟨hinv.2, hinv.1⟩
          | Command c content =>
            obtain ⟨he1, he2, he3⟩ := hcmd c content hcl
            have ho : o = "" := runCommand_nonexec_out he1 he2 he3 hr
            left
            rw [hout, ho, routeOutput_empty]

/-- C5 witness: a plain text line with a macro substitution. -/
theorem C5_trailing_newline_witness :
    ("One Bar Two\n" : String) = "" ∨
      ("One Bar Two\n" : String).data.getLast? = some '\n' ∧
        ("One Bar Two\n" : String).data.count '\n' = 1 :=
  C5_trailing_newline 2 "One Foo Two" ctxFoo envTrivial "One Bar Two\n" ctxFoo
    (by rfl) (by decide) (by decide)
    (fun c content hcc => by
      rw [show classify (stripLineEnd "One Foo Two".data) ctxFoo
          = Except.ok (Line.Text "One Foo Two".data) from rfl] at hcc
      exact absurd (Except.ok.inj hcc) (by simp))
